import Mathlib

/-!
# Verification of the Smart-Itinerary-Optimization solver pipeline

Shallow embedding of `src/optimization/solver.py` (`solve_mtsp`).  The
external MILP engine (OR-Tools CBC) is opaque: we model its outcome as a
`SolverStatus` together with raw numeric solution values for the decision
variables `y[i,d]` (visit) and `x[i,j,d]` (arc).  Python floats are modelled
by `ℚ`.  Everything downstream of the solve call — materialization at the
`> 0.5` threshold, per-day route decoding, and the totals aggregation — is
embedded faithfully, as are the pre-solve derived quantities
(`travel_time`, weighted `fun`).
-/

/-- Raw solution values of the visit variables: `yval i d` models
`y[i, d].solution_value()`. -/
abbrev RawVisit := ℕ → ℕ → ℚ

/-- Raw solution values of the arc variables: `xval i j d` models
`x[i, j, d].solution_value()`. -/
abbrev RawArc := ℕ → ℕ → ℕ → ℚ

/-- Materialization threshold used throughout `solve_mtsp`: a raw value
counts as true iff it is strictly greater than `0.5`
(`.solution_value() > 0.5`); `mkRat 1 2` is the rational `0.5`. -/
def bTrue (v : ℚ) : Bool := decide (mkRat 1 2 < v)

/-- One attraction record, the columns of the `attractions` DataFrame
consumed by `solve_mtsp` (`name`, `category`, `avg_time_hr`, `entry_fee`,
`fun_score`). -/
structure Attraction where
  name : String
  category : String
  avg_time_hr : ℚ
  entry_fee : ℚ
  fun_score : ℚ
deriving Repr, DecidableEq, Inhabited

/-- `dist / float(avg_speed_kmph) if avg_speed_kmph else dist.copy()` —
entrywise: divide by the speed when it is truthy (nonzero), otherwise reuse
the raw distance. -/
def travel_time (dist : ℕ → ℕ → ℚ) (avg_speed_kmph : ℚ) (i j : ℕ) : ℚ :=
  if avg_speed_kmph ≠ 0 then dist i j / avg_speed_kmph else dist i j

/-- `weights.get(cat, 1.0)`: first binding for the key, defaulting to `1`. -/
def weightGet (w : List (String × ℚ)) (cat : String) : ℚ :=
  match w.lookup cat with
  | some v => v
  | none => 1

/-- The weighted fun score of attraction `i`: when a `weights` mapping is
supplied (and the `category` column exists, which the record type always
provides), `fun_score * weights.get(category, 1.0)`; otherwise the raw
`fun_score`.  Embeds lines 56–64 of `solver.py`. -/
def weightedFun (attractions : List Attraction)
    (weights : Option (List (String × ℚ))) (i : ℕ) : ℚ :=
  let a := attractions.getD i default
  match weights with
  | some w => a.fun_score * weightGet w a.category
  | none => a.fun_score

/-- Outcome reported by the external engine (`pywraplp` status codes). -/
inductive SolverStatus where
  | OPTIMAL
  | FEASIBLE
  | INFEASIBLE
  | UNBOUNDED
  | ABNORMAL
  | NOT_SOLVED
deriving Repr, DecidableEq

/-- `status in (pywraplp.Solver.OPTIMAL, pywraplp.Solver.FEASIBLE)`. -/
def SolverStatus.isSuccess : SolverStatus → Bool
  | .OPTIMAL => true
  | .FEASIBLE => true
  | _ => false

/-- The assigned indices of day `d`:
`[i for i in range(n) if y[i, d].solution_value() > 0.5]`. -/
def assigned (yval : RawVisit) (n d : ℕ) : List ℕ :=
  (List.range n).filter (fun i => bTrue (yval i d))

/-- The successor of `i` on day `d`: the adjacency lists collect, for each
`i`, the `j ≠ i` with `x[i, j, d].solution_value() > 0.5` in increasing `j`
order, and `succ[i] = succs[0]` takes the first of them (lines 156–172). -/
def succOf (xval : RawArc) (n d i : ℕ) : Option ℕ :=
  ((List.range n).filter (fun j => decide (j ≠ i) && bTrue (xval i j d))).head?

/-- The inner while-loop of the decoder (lines 179–187): starting at `cur`,
while `cur not in visited and cur in range(n)`, mark `cur` visited, append
`names[cur]`, and move to `succ[cur]` if present, else stop.  Returns the
chain of names together with the updated visited set.  Terminates because
each iteration inserts a fresh element of `range n` into `visited`. -/
def walk (succ : ℕ → Option ℕ) (names : List String)
    (visited : Finset ℕ) (cur : ℕ) : List String × Finset ℕ :=
  if h : cur ∉ visited ∧ cur < names.length then
    match succ cur with
    | some nxt =>
      let p := walk succ names (insert cur visited) nxt
      (names.getD cur "" :: p.1, p.2)
    | none => ([names.getD cur ""], insert cur visited)
  else ([], visited)
termination_by (Finset.range names.length \ visited).card
decreasing_by
  apply Finset.card_lt_card
  apply Finset.ssubset_iff.mpr
  refine ⟨cur, ?_, ?_⟩
  · simp [h.1, h.2]
  · intro a ha
    rcases Finset.mem_insert.mp ha with h1 | h1
    · subst h1; simp [h.1, h.2]
    · have := Finset.mem_sdiff.mp h1
      exact Finset.mem_sdiff.mpr ⟨this.1, fun hc => this.2 (Finset.mem_insert_of_mem hc)⟩

/-- Index-level counterpart of `walk`: the indices consumed by the chain
walk, in walk order, with the updated visited set. -/
def walkIdx (succ : ℕ → Option ℕ) (n : ℕ)
    (visited : Finset ℕ) (cur : ℕ) : List ℕ × Finset ℕ :=
  if h : cur ∉ visited ∧ cur < n then
    match succ cur with
    | some nxt =>
      let p := walkIdx succ n (insert cur visited) nxt
      (cur :: p.1, p.2)
    | none => ([cur], insert cur visited)
  else ([], visited)
termination_by (Finset.range n \ visited).card
decreasing_by
  apply Finset.card_lt_card
  apply Finset.ssubset_iff.mpr
  refine ⟨cur, ?_, ?_⟩
  · simp [h.1, h.2]
  · intro a ha
    rcases Finset.mem_insert.mp ha with h1 | h1
    · subst h1; simp [h.1, h.2]
    · have := Finset.mem_sdiff.mp h1
      exact Finset.mem_sdiff.mpr ⟨this.1, fun hc => this.2 (Finset.mem_insert_of_mem hc)⟩

/-- The outer decoder loop (lines 176–188): for each `start` in the
assigned list, skip it when already visited, otherwise walk a chain;
collect the chains in discovery order, threading the visited set. -/
def chainsFrom (succ : ℕ → Option ℕ) (names : List String) :
    List ℕ → Finset ℕ → List (List String) × Finset ℕ
  | [], visited => ([], visited)
  | start :: rest, visited =>
    if start ∈ visited then chainsFrom succ names rest visited
    else
      let p := walk succ names visited start
      let q := chainsFrom succ names rest p.2
      (p.1 :: q.1, q.2)

/-- Index-level counterpart of `chainsFrom`. -/
def chainsIdx (succ : ℕ → Option ℕ) (n : ℕ) :
    List ℕ → Finset ℕ → List (List ℕ) × Finset ℕ
  | [], visited => ([], visited)
  | start :: rest, visited =>
    if start ∈ visited then chainsIdx succ n rest visited
    else
      let p := walkIdx succ n visited start
      let q := chainsIdx succ n rest p.2
      (p.1 :: q.1, q.2)

/-- Fuel-indexed structural variant of `walkIdx`, used to evaluate the
decoder on concrete inputs (the well-founded `walkIdx` does not reduce
definitionally); `walkIdxF` agrees with `walkIdx` whenever the fuel
exceeds the number of unvisited indices. -/
def walkIdxF : ℕ → (ℕ → Option ℕ) → ℕ → Finset ℕ → ℕ → List ℕ × Finset ℕ
  | 0, _, _, visited, _ => ([], visited)
  | fuel + 1, succ, n, visited, cur =>
    if cur ∉ visited ∧ cur < n then
      match succ cur with
      | some nxt =>
        let p := walkIdxF fuel succ n (insert cur visited) nxt
        (cur :: p.1, p.2)
      | none => ([cur], insert cur visited)
    else ([], visited)

/-- Fuel-indexed structural variant of `chainsIdx`. -/
def chainsIdxF (fuel : ℕ) (succ : ℕ → Option ℕ) (n : ℕ) :
    List ℕ → Finset ℕ → List (List ℕ) × Finset ℕ
  | [], visited => ([], visited)
  | start :: rest, visited =>
    if start ∈ visited then chainsIdxF fuel succ n rest visited
    else
      let p := walkIdxF fuel succ n visited start
      let q := chainsIdxF fuel succ n rest p.2
      (p.1 :: q.1, q.2)

/-- One day's decoded route (lines 167–194): walk chains from the assigned
indices with an initially empty visited set, then flatten the chains, in
discovery order, into a single list of names. -/
def decodeDay (names : List String) (yval : RawVisit) (xval : RawArc)
    (d : ℕ) : List String :=
  let n := names.length
  ((chainsFrom (succOf xval n d) names (assigned yval n d) ∅).1).flatten

/-- Index-level counterpart of `decodeDay`: the decoded indices of day `d`. -/
def decodeDayIdx (names : List String) (yval : RawVisit) (xval : RawArc)
    (d : ℕ) : List ℕ :=
  let n := names.length
  ((chainsIdx (succOf xval n d) n (assigned yval n d) ∅).1).flatten

/-- The quadruple returned by `solve_mtsp`. -/
structure SolveResult where
  itinerary : List (List String)
  total_cost : ℚ
  total_fun : ℚ
  total_dist : ℚ
deriving Repr, DecidableEq

/-- `sum(fee[i] for d in range(days) for i in range(n) if y[i,d] > 0.5)`. -/
def totalEntryCost (fee : ℕ → ℚ) (n days : ℕ) (yval : RawVisit) : ℚ :=
  (((List.range days).flatMap (fun d =>
    ((List.range n).filter (fun i => bTrue (yval i d))).map (fun i => fee i)))).sum

/-- `sum(fun[i] for d in range(days) for i in range(n) if y[i,d] > 0.5)`. -/
def totalFunOf (funW : ℕ → ℚ) (n days : ℕ) (yval : RawVisit) : ℚ :=
  (((List.range days).flatMap (fun d =>
    ((List.range n).filter (fun i => bTrue (yval i d))).map (fun i => funW i)))).sum

/-- `sum(dist[i,j] for d for i for j if i != j and x[i,j,d] > 0.5)`. -/
def totalDistOf (dist : ℕ → ℕ → ℚ) (n days : ℕ) (xval : RawArc) : ℚ :=
  (((List.range days).flatMap (fun d =>
    (List.range n).flatMap (fun i =>
      ((List.range n).filter (fun j => decide (i ≠ j) && bTrue (xval i j d))).map
        (fun j => dist i j))))).sum

/-- Everything `solve_mtsp` does after the solve call (lines 150–233): on a
non-success status return `days` empty lists and all totals `0.0`;
otherwise decode each day and aggregate the totals from the materialized
assignment, with
`total_cost = total_entry_cost + total_dist * travel_cost_per_km`. -/
def solve_mtsp_post (names : List String) (dist : ℕ → ℕ → ℚ)
    (fee funW : ℕ → ℚ) (days : ℕ) (travel_cost_per_km : ℚ)
    (status : SolverStatus) (yval : RawVisit) (xval : RawArc) : SolveResult :=
  if status.isSuccess then
    let n := names.length
    let itinerary := (List.range days).map (fun d => decodeDay names yval xval d)
    let total_entry_cost := totalEntryCost fee n days yval
    let total_fun := totalFunOf funW n days yval
    let total_dist := totalDistOf dist n days xval
    let total_travel_cost := total_dist * travel_cost_per_km
    let total_cost := total_entry_cost + total_travel_cost
    { itinerary := itinerary, total_cost := total_cost,
      total_fun := total_fun, total_dist := total_dist }
  else
    { itinerary := List.replicate days [], total_cost := 0,
      total_fun := 0, total_dist := 0 }

/-! ## Constraint-satisfaction hypotheses on the materialized assignment -/

/-- Every materialized-true arc of day `d` has both endpoints materialized as
visited on day `d`.  For a constraint-satisfying solution this is a
consequence of the degree constraints
`in_sum + out_sum >= y[i,d]` and `in_sum + out_sum <= 2*y[i,d]`
(lines 110–115 of `solver.py`). -/
def arcsWithinAssigned (n : ℕ) (yval : RawVisit) (xval : RawArc) (d : ℕ) : Prop :=
  ∀ i, i < n → ∀ j, j < n → i ≠ j → bTrue (xval i j d) = true →
    bTrue (yval i d) = true ∧ bTrue (yval j d) = true

/-- The visited-at-most-once-across-days constraint
`sum_d y[i,d] <= 1` (lines 117–119 of `solver.py`), on the materialized
assignment: no attraction is marked visited on two distinct days. -/
def visitedAtMostOnce (n days : ℕ) (yval : RawVisit) : Prop :=
  ∀ i, i < n → ∀ d, d < days → ∀ e, e < days →
    bTrue (yval i d) = true → bTrue (yval i e) = true → d = e

instance (n : ℕ) (yval : RawVisit) (xval : RawArc) (d : ℕ) :
    Decidable (arcsWithinAssigned n yval xval d) := by
  unfold arcsWithinAssigned
  infer_instance

instance (n days : ℕ) (yval : RawVisit) :
    Decidable (visitedAtMostOnce n days yval) := by
  unfold visitedAtMostOnce
  infer_instance


/-! ## Spec-side formulations of the totals -/

/-- The entry-cost aggregation of `solve_mtsp`, stated as a double sum over
index ranges: `total_entry_cost = Σ_{d<days} Σ_{i<n, visit[i,d]} fee[i]`. -/
def specTotalEntryCost (fee : ℕ → ℚ) (n days : ℕ) (yval : RawVisit) : ℚ :=
  ∑ d ∈ Finset.range days, ∑ i ∈ Finset.range n,
    if bTrue (yval i d) then fee i else 0

/-- The fun aggregation, stated as a double sum:
`total_fun = Σ_{d<days} Σ_{i<n, visit[i,d]} weightedFun[i]`. -/
def specTotalFun (funW : ℕ → ℚ) (n days : ℕ) (yval : RawVisit) : ℚ :=
  ∑ d ∈ Finset.range days, ∑ i ∈ Finset.range n,
    if bTrue (yval i d) then funW i else 0

/-- The distance aggregation, stated as a triple sum:
`total_distance = Σ_{d<days} Σ_{i≠j<n, arc[i,j,d]} dist[i][j]`. -/
def specTotalDist (dist : ℕ → ℕ → ℚ) (n days : ℕ) (xval : RawArc) : ℚ :=
  ∑ d ∈ Finset.range days, ∑ i ∈ Finset.range n, ∑ j ∈ Finset.range n,
    if i ≠ j ∧ bTrue (xval i j d) = true then dist i j else 0


/-! ## The decoded-consecutive-pairs distance of the spec, and concrete data -/

/-- Distance summed over the consecutive pairs of one index sequence. -/
def pairDistSum (dist : ℕ → ℕ → ℚ) : List ℕ → ℚ
  | [] => 0
  | [_] => 0
  | i :: j :: rest => dist i j + pairDistSum dist (j :: rest)

/-- The spec-side reading of `totalDistance` in §8 of the spec: the sum of
`dist[i][j]` over every consecutive pair of the decoded day sequences,
across all days.  To be compared with the `totalDistOf` aggregation the
code actually performs. -/
def decodedPairDistSum (names : List String) (dist : ℕ → ℕ → ℚ)
    (yval : RawVisit) (xval : RawArc) (days : ℕ) : ℚ :=
  ((List.range days).map
    (fun d => pairDistSum dist (decodeDayIdx names yval xval d))).sum

/-- Two-day scenario: attraction 0 assigned to day 0, attraction 1 to
day 1 — the at-most-once constraint holds. -/
def yCexOne : RawVisit := fun i d =>
  if (i = 0 ∧ d = 0) ∨ (i = 1 ∧ d = 1) then 1 else 0

/-- A single materialized arc 0 → 1 on day 0, whose target is not assigned
on day 0. -/
def xCexOne : RawArc := fun i j d => if i = 0 ∧ j = 1 ∧ d = 0 then 1 else 0

/-- The pipeline result on the two-day scenario. -/
def resCexOne : SolveResult :=
  solve_mtsp_post ["A", "B"] (fun _ _ => 1) (fun _ => 0) (fun _ => 1) 2 20
    .OPTIMAL yCexOne xCexOne

/-- One-day scenario with all four attractions assigned. -/
def yCexTwo : RawVisit := fun i d => if i < 4 ∧ d = 0 then 1 else 0

/-- Two disconnected chain fragments on day 0: arcs 0 → 1 and 2 → 3. -/
def xCexTwo : RawArc := fun i j d =>
  if ((i = 0 ∧ j = 1) ∨ (i = 2 ∧ j = 3)) ∧ d = 0 then 1 else 0

/-- A symmetric distance matrix with zero diagonal. -/
def distCexTwo : ℕ → ℕ → ℚ := fun i j => if i = j then 0 else ((i + j + 1 : ℕ) : ℚ)

/-- The pipeline result on the two-fragment scenario. -/
def resCexTwo : SolveResult :=
  solve_mtsp_post ["A", "B", "C", "D"] distCexTwo (fun _ => 0) (fun _ => 1) 1 2
    .OPTIMAL yCexTwo xCexTwo

/-- Witness scenario: attractions 0 and 1 both assigned to day 0, joined by
the single arc 0 → 1 — a constraint-satisfying assignment. -/
def yWit : RawVisit := fun i d => if i < 2 ∧ d = 0 then 1 else 0

/-- The single arc 0 → 1 on day 0 of the witness scenario. -/
def xWit : RawArc := fun i j d => if i = 0 ∧ j = 1 ∧ d = 0 then 1 else 0

/-- Distances of the witness scenario. -/
def distWit : ℕ → ℕ → ℚ := fun i j => if i = j then 0 else 3

/-- Entry fees of the witness scenario. -/
def feeWit : ℕ → ℚ := fun _ => 10

/-- Weighted fun scores of the witness scenario. -/
def funWit : ℕ → ℚ := fun _ => 2

/-- The pipeline result on the witness scenario. -/
def resWit : SolveResult :=
  solve_mtsp_post ["A", "B"] distWit feeWit funWit 1 20 .OPTIMAL yWit xWit

/-- Raw visit values with a different numeric profile but the same
materialized boolean pattern as `yWit` on the relevant index range. -/
def yWitAlt : RawVisit := fun i d => if i < 2 ∧ d = 0 then mkRat 9 10 else mkRat 1 4

/-- Raw arc values with a different numeric profile but the same
materialized pattern as `xWit`; the off-pattern value sits exactly at the
`0.5` threshold and must materialize as false. -/
def xWitAlt : RawArc := fun i j d =>
  if i = 0 ∧ j = 1 ∧ d = 0 then mkRat 3 4 else mkRat 1 2

/-- A concrete attraction list for evaluating the derived quantities. -/
def attrsWit : List Attraction :=
  [{ name := "A", category := "food", avg_time_hr := 1, entry_fee := 10, fun_score := 2 },
   { name := "B", category := "park", avg_time_hr := 2, entry_fee := 10, fun_score := 3 }]

/-- A concrete category-weight mapping that omits the category `park`. -/
def weightsWit : List (String × ℚ) := [("food", 1/2)]

/-! ## Invariants of the chain walk -/

theorem walkIdx_pos_some {succ : ℕ → Option ℕ} {n : ℕ} {visited : Finset ℕ} {cur nxt : ℕ}
    (h1 : cur ∉ visited) (h2 : cur < n) (hs : succ cur = some nxt) :
    walkIdx succ n visited cur =
      (cur :: (walkIdx succ n (insert cur visited) nxt).1,
       (walkIdx succ n (insert cur visited) nxt).2) := by
  rw [walkIdx]
  simp [h1, h2, hs]

theorem walkIdx_pos_none {succ : ℕ → Option ℕ} {n : ℕ} {visited : Finset ℕ} {cur : ℕ}
    (h1 : cur ∉ visited) (h2 : cur < n) (hs : succ cur = none) :
    walkIdx succ n visited cur = ([cur], insert cur visited) := by
  rw [walkIdx]
  simp [h1, h2, hs]

theorem walkIdx_neg {succ : ℕ → Option ℕ} {n : ℕ} {visited : Finset ℕ} {cur : ℕ}
    (h : ¬(cur ∉ visited ∧ cur < n)) :
    walkIdx succ n visited cur = ([], visited) := by
  rw [walkIdx]
  simp [h]

theorem walkIdx_snd (succ : ℕ → Option ℕ) (n : ℕ) (visited : Finset ℕ) (cur : ℕ) :
    (walkIdx succ n visited cur).2 = visited ∪ (walkIdx succ n visited cur).1.toFinset := by
  induction visited, cur using walkIdx.induct succ n with
  | case1 visited cur h nxt hs ih =>
    rw [walkIdx_pos_some h.1 h.2 hs] at *
    simp only [List.toFinset_cons]
    rw [ih, Finset.insert_union, Finset.union_insert]
  | case2 visited cur h hs =>
    rw [walkIdx_pos_none h.1 h.2 hs]
    simp [Finset.insert_eq, Finset.union_comm]
  | case3 visited cur h =>
    rw [walkIdx_neg h]
    simp

theorem walkIdx_mem_not_visited (succ : ℕ → Option ℕ) (n : ℕ) (visited : Finset ℕ)
    (cur : ℕ) : ∀ i ∈ (walkIdx succ n visited cur).1, i ∉ visited := by
  induction visited, cur using walkIdx.induct succ n with
  | case1 visited cur h nxt hs ih =>
    rw [walkIdx_pos_some h.1 h.2 hs]
    intro i hi
    rcases List.mem_cons.mp hi with h1 | h1
    · subst h1; exact h.1
    · exact fun hc => ih i h1 (Finset.mem_insert_of_mem hc)
  | case2 visited cur h hs =>
    rw [walkIdx_pos_none h.1 h.2 hs]
    intro i hi
    rw [List.mem_singleton] at hi
    subst hi; exact h.1
  | case3 visited cur h =>
    rw [walkIdx_neg h]
    intro i hi
    simp at hi

theorem walkIdx_mem_lt (succ : ℕ → Option ℕ) (n : ℕ) (visited : Finset ℕ)
    (cur : ℕ) : ∀ i ∈ (walkIdx succ n visited cur).1, i < n := by
  induction visited, cur using walkIdx.induct succ n with
  | case1 visited cur h nxt hs ih =>
    rw [walkIdx_pos_some h.1 h.2 hs]
    intro i hi
    rcases List.mem_cons.mp hi with h1 | h1
    · subst h1; exact h.2
    · exact ih i h1
  | case2 visited cur h hs =>
    rw [walkIdx_pos_none h.1 h.2 hs]
    intro i hi
    rw [List.mem_singleton] at hi
    subst hi; exact h.2
  | case3 visited cur h =>
    rw [walkIdx_neg h]
    intro i hi
    simp at hi

theorem walkIdx_nodup (succ : ℕ → Option ℕ) (n : ℕ) (visited : Finset ℕ)
    (cur : ℕ) : (walkIdx succ n visited cur).1.Nodup := by
  induction visited, cur using walkIdx.induct succ n with
  | case1 visited cur h nxt hs ih =>
    rw [walkIdx_pos_some h.1 h.2 hs]
    refine List.nodup_cons.mpr ⟨?_, ih⟩
    intro hc
    exact walkIdx_mem_not_visited succ n _ nxt cur hc (Finset.mem_insert_self _ _)
  | case2 visited cur h hs =>
    rw [walkIdx_pos_none h.1 h.2 hs]
    simp
  | case3 visited cur h =>
    rw [walkIdx_neg h]
    simp

theorem walkIdx_closed (succ : ℕ → Option ℕ) (n : ℕ) (P : ℕ → Prop)
    (hsucc : ∀ i j, i < n → succ i = some j → P j) (visited : Finset ℕ) (cur : ℕ)
    (hcur : P cur) : ∀ i ∈ (walkIdx succ n visited cur).1, P i := by
  induction visited, cur using walkIdx.induct succ n with
  | case1 visited cur h nxt hs ih =>
    rw [walkIdx_pos_some h.1 h.2 hs]
    intro i hi
    rcases List.mem_cons.mp hi with h1 | h1
    · subst h1; exact hcur
    · exact ih (hsucc cur nxt h.2 hs) i h1
  | case2 visited cur h hs =>
    rw [walkIdx_pos_none h.1 h.2 hs]
    intro i hi
    rw [List.mem_singleton] at hi
    subst hi; exact hcur
  | case3 visited cur h =>
    rw [walkIdx_neg h]
    intro i hi
    simp at hi

theorem walkIdx_visited_subset (succ : ℕ → Option ℕ) (n : ℕ) (visited : Finset ℕ)
    (cur : ℕ) : visited ⊆ (walkIdx succ n visited cur).2 := by
  rw [walkIdx_snd]
  exact Finset.subset_union_left

theorem walkIdx_start_mem (succ : ℕ → Option ℕ) (n : ℕ) (visited : Finset ℕ)
    (cur : ℕ) (h1 : cur ∉ visited) (h2 : cur < n) :
    cur ∈ (walkIdx succ n visited cur).1 := by
  cases hs : succ cur with
  | some nxt => rw [walkIdx_pos_some h1 h2 hs]; exact List.mem_cons_self _ _
  | none => rw [walkIdx_pos_none h1 h2 hs]; exact List.mem_singleton_self _

theorem chainsIdx_snd (succ : ℕ → Option ℕ) (n : ℕ) :
    ∀ (starts : List ℕ) (visited : Finset ℕ),
      (chainsIdx succ n starts visited).2 =
        visited ∪ ((chainsIdx succ n starts visited).1.flatten).toFinset := by
  intro starts
  induction starts with
  | nil => intro visited; simp [chainsIdx]
  | cons start rest ih =>
    intro visited
    by_cases hv : start ∈ visited
    · simp only [chainsIdx, if_pos hv]
      exact ih visited
    · simp only [chainsIdx, if_neg hv, List.flatten_cons, List.toFinset_append]
      rw [ih, walkIdx_snd, Finset.union_assoc]

theorem chainsIdx_visited_subset (succ : ℕ → Option ℕ) (n : ℕ)
    (starts : List ℕ) (visited : Finset ℕ) :
    visited ⊆ (chainsIdx succ n starts visited).2 := by
  rw [chainsIdx_snd]
  exact Finset.subset_union_left

theorem chainsIdx_flatten_not_visited (succ : ℕ → Option ℕ) (n : ℕ) :
    ∀ (starts : List ℕ) (visited : Finset ℕ),
      ∀ i ∈ (chainsIdx succ n starts visited).1.flatten, i ∉ visited := by
  intro starts
  induction starts with
  | nil => intro visited i hi; simp [chainsIdx] at hi
  | cons start rest ih =>
    intro visited i hi
    by_cases hv : start ∈ visited
    · simp only [chainsIdx, if_pos hv] at hi
      exact ih visited i hi
    · simp only [chainsIdx, if_neg hv, List.flatten_cons, List.mem_append] at hi
      rcases hi with h1 | h1
      · exact walkIdx_mem_not_visited succ n visited start i h1
      · intro hc
        exact ih _ i h1 (walkIdx_visited_subset succ n visited start hc)

theorem chainsIdx_flatten_lt (succ : ℕ → Option ℕ) (n : ℕ) :
    ∀ (starts : List ℕ) (visited : Finset ℕ),
      ∀ i ∈ (chainsIdx succ n starts visited).1.flatten, i < n := by
  intro starts
  induction starts with
  | nil => intro visited i hi; simp [chainsIdx] at hi
  | cons start rest ih =>
    intro visited i hi
    by_cases hv : start ∈ visited
    · simp only [chainsIdx, if_pos hv] at hi
      exact ih visited i hi
    · simp only [chainsIdx, if_neg hv, List.flatten_cons, List.mem_append] at hi
      rcases hi with h1 | h1
      · exact walkIdx_mem_lt succ n visited start i h1
      · exact ih _ i h1

theorem chainsIdx_flatten_nodup (succ : ℕ → Option ℕ) (n : ℕ) :
    ∀ (starts : List ℕ) (visited : Finset ℕ),
      (chainsIdx succ n starts visited).1.flatten.Nodup := by
  intro starts
  induction starts with
  | nil => intro visited; simp [chainsIdx]
  | cons start rest ih =>
    intro visited
    by_cases hv : start ∈ visited
    · simp only [chainsIdx, if_pos hv]
      exact ih visited
    · simp only [chainsIdx, if_neg hv, List.flatten_cons]
      refine List.Nodup.append (walkIdx_nodup succ n visited start) (ih _) ?_
      intro a ha hb
      have h2 := chainsIdx_flatten_not_visited succ n rest _ a hb
      apply h2
      rw [walkIdx_snd]
      exact Finset.mem_union_right _ (List.mem_toFinset.mpr ha)

theorem chainsIdx_closed (succ : ℕ → Option ℕ) (n : ℕ) (P : ℕ → Prop)
    (hsucc : ∀ i j, i < n → succ i = some j → P j) :
    ∀ (starts : List ℕ) (visited : Finset ℕ), (∀ s ∈ starts, P s) →
      ∀ i ∈ (chainsIdx succ n starts visited).1.flatten, P i := by
  intro starts
  induction starts with
  | nil => intro visited _ i hi; simp [chainsIdx] at hi
  | cons start rest ih =>
    intro visited hP i hi
    by_cases hv : start ∈ visited
    · simp only [chainsIdx, if_pos hv] at hi
      exact ih visited (fun s hs => hP s (List.mem_cons_of_mem _ hs)) i hi
    · simp only [chainsIdx, if_neg hv, List.flatten_cons, List.mem_append] at hi
      rcases hi with h1 | h1
      · exact walkIdx_closed succ n P hsucc visited start (hP start (List.mem_cons_self _ _)) i h1
      · exact ih _ (fun s hs => hP s (List.mem_cons_of_mem _ hs)) i h1

theorem chainsIdx_covers (succ : ℕ → Option ℕ) (n : ℕ) :
    ∀ (starts : List ℕ) (visited : Finset ℕ),
      ∀ s ∈ starts, s < n → s ∈ (chainsIdx succ n starts visited).2 := by
  intro starts
  induction starts with
  | nil => intro visited s hs; simp at hs
  | cons start rest ih =>
    intro visited s hs hlt
    by_cases hv : start ∈ visited
    · simp only [chainsIdx, if_pos hv]
      rcases List.mem_cons.mp hs with h1 | h1
      · subst h1
        exact chainsIdx_visited_subset succ n rest visited hv
      · exact ih visited s h1 hlt
    · simp only [chainsIdx, if_neg hv]
      rcases List.mem_cons.mp hs with h1 | h1
      · subst h1
        apply chainsIdx_visited_subset succ n rest _
        rw [walkIdx_snd]
        exact Finset.mem_union_right _
          (List.mem_toFinset.mpr (walkIdx_start_mem succ n visited s hv hlt))
      · exact ih _ s h1 hlt

/-! ## Correspondence between the name-level decoder and its index-level view -/

theorem walk_pos_some {succ : ℕ → Option ℕ} {names : List String}
    {visited : Finset ℕ} {cur nxt : ℕ}
    (h1 : cur ∉ visited) (h2 : cur < names.length) (hs : succ cur = some nxt) :
    walk succ names visited cur =
      (names.getD cur "" :: (walk succ names (insert cur visited) nxt).1,
       (walk succ names (insert cur visited) nxt).2) := by
  rw [walk]
  simp [h1, h2, hs]

theorem walk_pos_none {succ : ℕ → Option ℕ} {names : List String}
    {visited : Finset ℕ} {cur : ℕ}
    (h1 : cur ∉ visited) (h2 : cur < names.length) (hs : succ cur = none) :
    walk succ names visited cur = ([names.getD cur ""], insert cur visited) := by
  rw [walk]
  simp [h1, h2, hs]

theorem walk_neg {succ : ℕ → Option ℕ} {names : List String}
    {visited : Finset ℕ} {cur : ℕ} (h : ¬(cur ∉ visited ∧ cur < names.length)) :
    walk succ names visited cur = ([], visited) := by
  rw [walk]
  simp [h]

theorem walk_eq_walkIdx (succ : ℕ → Option ℕ) (names : List String)
    (visited : Finset ℕ) (cur : ℕ) :
    walk succ names visited cur =
      (((walkIdx succ names.length visited cur).1).map (fun i => names.getD i ""),
       (walkIdx succ names.length visited cur).2) := by
  induction visited, cur using walkIdx.induct succ names.length with
  | case1 visited cur h nxt hs ih =>
    rw [walkIdx_pos_some h.1 h.2 hs, walk_pos_some h.1 h.2 hs, ih]
    rfl
  | case2 visited cur h hs =>
    rw [walkIdx_pos_none h.1 h.2 hs, walk_pos_none h.1 h.2 hs]
    rfl
  | case3 visited cur h =>
    rw [walkIdx_neg h, walk_neg h]
    rfl

theorem chainsFrom_eq_chainsIdx (succ : ℕ → Option ℕ) (names : List String) :
    ∀ (starts : List ℕ) (visited : Finset ℕ),
      chainsFrom succ names starts visited =
        (((chainsIdx succ names.length starts visited).1).map
           (List.map (fun i => names.getD i "")),
         (chainsIdx succ names.length starts visited).2) := by
  intro starts
  induction starts with
  | nil => intro visited; rfl
  | cons start rest ih =>
    intro visited
    by_cases hv : start ∈ visited
    · simp only [chainsFrom, chainsIdx, if_pos hv]
      exact ih visited
    · simp only [chainsFrom, chainsIdx, if_neg hv]
      rw [walk_eq_walkIdx, ih]
      rfl

theorem decodeDay_eq_decodeDayIdx (names : List String) (yval : RawVisit)
    (xval : RawArc) (d : ℕ) :
    decodeDay names yval xval d =
      (decodeDayIdx names yval xval d).map (fun i => names.getD i "") := by
  simp only [decodeDay, decodeDayIdx]
  rw [chainsFrom_eq_chainsIdx]
  simp [List.map_flatten]

/-! ## Characterizations of the assigned set and the successor map -/

theorem mem_assigned {yval : RawVisit} {n d i : ℕ} :
    i ∈ assigned yval n d ↔ i < n ∧ bTrue (yval i d) = true := by
  simp [assigned, List.mem_filter, List.mem_range]

theorem assigned_nodup (yval : RawVisit) (n d : ℕ) : (assigned yval n d).Nodup :=
  (List.nodup_range n).filter _

theorem succOf_some {xval : RawArc} {n d i j : ℕ}
    (h : succOf xval n d i = some j) :
    j < n ∧ j ≠ i ∧ bTrue (xval i j d) = true := by
  unfold succOf at h
  have hmem : j ∈ (List.range n).filter
      (fun j => decide (j ≠ i) && bTrue (xval i j d)) := by
    cases hl : (List.range n).filter (fun j => decide (j ≠ i) && bTrue (xval i j d)) with
    | nil => rw [hl] at h; simp at h
    | cons a tl =>
      rw [hl] at h
      simp only [List.head?_cons, Option.some.injEq] at h
      subst h
      exact List.mem_cons_self _ tl
  have h2 := List.mem_filter.mp hmem
  have h3 := List.mem_range.mp h2.1
  have h4 := h2.2
  simp only [Bool.and_eq_true, decide_eq_true_eq] at h4
  exact ⟨h3, h4.1, h4.2⟩

/-! ## Day-level properties of the decoder -/

theorem decodeDayIdx_nodup (names : List String) (yval : RawVisit)
    (xval : RawArc) (d : ℕ) : (decodeDayIdx names yval xval d).Nodup :=
  chainsIdx_flatten_nodup _ _ _ _

theorem decodeDayIdx_lt (names : List String) (yval : RawVisit)
    (xval : RawArc) (d : ℕ) :
    ∀ i ∈ decodeDayIdx names yval xval d, i < names.length :=
  chainsIdx_flatten_lt _ _ _ _

theorem decodeDayIdx_mem_iff (names : List String) (yval : RawVisit)
    (xval : RawArc) (d : ℕ)
    (Hc : arcsWithinAssigned names.length yval xval d) :
    ∀ i, i ∈ decodeDayIdx names yval xval d ↔
      i < names.length ∧ bTrue (yval i d) = true := by
  intro i
  constructor
  · intro hi
    refine chainsIdx_closed (succOf xval names.length d) names.length
      (fun k => k < names.length ∧ bTrue (yval k d) = true) ?_ _ _ ?_ i hi
    · intro a b ha hs
      have hb := succOf_some hs
      exact ⟨hb.1, (Hc a ha b hb.1 (Ne.symm hb.2.1) hb.2.2).2⟩
    · intro s hs
      exact mem_assigned.mp hs
  · intro ⟨hlt, hy⟩
    have hs : i ∈ assigned yval names.length d := mem_assigned.mpr ⟨hlt, hy⟩
    have h2 := chainsIdx_covers (succOf xval names.length d) names.length
      (assigned yval names.length d) ∅ i hs hlt
    rw [chainsIdx_snd] at h2
    rcases Finset.mem_union.mp h2 with h3 | h3
    · simp at h3
    · exact List.mem_toFinset.mp h3

/-! ## Decoding depends only on the materialized boolean pattern -/

theorem walkIdx_congr (succ succ' : ℕ → Option ℕ) (n : ℕ)
    (hagree : ∀ i, i < n → succ i = succ' i) :
    ∀ (visited : Finset ℕ) (cur : ℕ),
      walkIdx succ n visited cur = walkIdx succ' n visited cur := by
  intro visited cur
  induction visited, cur using walkIdx.induct succ n with
  | case1 visited cur h nxt hs ih =>
    have hs' : succ' cur = some nxt := by rw [← hagree cur h.2]; exact hs
    rw [walkIdx_pos_some h.1 h.2 hs, walkIdx_pos_some h.1 h.2 hs', ih]
  | case2 visited cur h hs =>
    have hs' : succ' cur = none := by rw [← hagree cur h.2]; exact hs
    rw [walkIdx_pos_none h.1 h.2 hs, walkIdx_pos_none h.1 h.2 hs']
  | case3 visited cur h =>
    rw [walkIdx_neg h, walkIdx_neg h]

theorem chainsIdx_congr (succ succ' : ℕ → Option ℕ) (n : ℕ)
    (hagree : ∀ i, i < n → succ i = succ' i) :
    ∀ (starts : List ℕ) (visited : Finset ℕ),
      chainsIdx succ n starts visited = chainsIdx succ' n starts visited := by
  intro starts
  induction starts with
  | nil => intro visited; rfl
  | cons start rest ih =>
    intro visited
    by_cases hv : start ∈ visited
    · simp only [chainsIdx, if_pos hv]
      exact ih visited
    · simp only [chainsIdx, if_neg hv]
      rw [walkIdx_congr succ succ' n hagree, ih]

theorem succOf_congr (xval xval' : RawArc) (n d : ℕ)
    (hx : ∀ i, i < n → ∀ j, j < n → bTrue (xval i j d) = bTrue (xval' i j d)) :
    ∀ i, i < n → succOf xval n d i = succOf xval' n d i := by
  intro i hi
  unfold succOf
  congr 1
  apply List.filter_congr
  intro j hj
  rw [List.mem_range] at hj
  rw [hx i hi j hj]

theorem assigned_congr (yval yval' : RawVisit) (n d : ℕ)
    (hy : ∀ i, i < n → bTrue (yval i d) = bTrue (yval' i d)) :
    assigned yval n d = assigned yval' n d := by
  unfold assigned
  apply List.filter_congr
  intro i hi
  rw [List.mem_range] at hi
  rw [hy i hi]

theorem decodeDay_congr (names : List String) (yval yval' : RawVisit)
    (xval xval' : RawArc) (d : ℕ)
    (hy : ∀ i, i < names.length → bTrue (yval i d) = bTrue (yval' i d))
    (hx : ∀ i, i < names.length → ∀ j, j < names.length →
      bTrue (xval i j d) = bTrue (xval' i j d)) :
    decodeDay names yval xval d = decodeDay names yval' xval' d := by
  rw [decodeDay_eq_decodeDayIdx, decodeDay_eq_decodeDayIdx]
  simp only [decodeDayIdx]
  rw [assigned_congr yval yval' names.length d hy,
    chainsIdx_congr _ _ _ (succOf_congr xval xval' names.length d hx)]

/-! ## Rewriting the totals as structured sums -/

theorem list_sum_flatMap (l : List ℕ) (f : ℕ → List ℚ) :
    (l.flatMap f).sum = (l.map (fun a => (f a).sum)).sum := by
  induction l with
  | nil => rfl
  | cons a tl ih => simp [List.flatMap_cons, List.sum_append, ih]

theorem list_sum_map_range (n : ℕ) (f : ℕ → ℚ) :
    ((List.range n).map f).sum = ∑ i ∈ Finset.range n, f i := by
  induction n with
  | zero => rfl
  | succ m ih =>
    rw [List.range_succ, List.map_append, List.sum_append, Finset.sum_range_succ, ih]
    simp

theorem list_sum_filter_map_range (n : ℕ) (p : ℕ → Bool) (f : ℕ → ℚ) :
    (((List.range n).filter p).map f).sum =
      ∑ i ∈ Finset.range n, if p i then f i else 0 := by
  induction n with
  | zero => rfl
  | succ m ih =>
    rw [List.range_succ, List.filter_append, List.map_append, List.sum_append,
      Finset.sum_range_succ, ih]
    by_cases hp : p m <;> simp [hp]

theorem totalEntryCost_eq_spec (fee : ℕ → ℚ) (n days : ℕ) (yval : RawVisit) :
    totalEntryCost fee n days yval = specTotalEntryCost fee n days yval := by
  unfold totalEntryCost specTotalEntryCost
  rw [list_sum_flatMap, list_sum_map_range]
  refine Finset.sum_congr rfl (fun d _ => ?_)
  rw [list_sum_filter_map_range]

theorem totalFunOf_eq_spec (funW : ℕ → ℚ) (n days : ℕ) (yval : RawVisit) :
    totalFunOf funW n days yval = specTotalFun funW n days yval := by
  unfold totalFunOf specTotalFun
  rw [list_sum_flatMap, list_sum_map_range]
  refine Finset.sum_congr rfl (fun d _ => ?_)
  rw [list_sum_filter_map_range]

theorem totalDistOf_eq_spec (dist : ℕ → ℕ → ℚ) (n days : ℕ) (xval : RawArc) :
    totalDistOf dist n days xval = specTotalDist dist n days xval := by
  unfold totalDistOf specTotalDist
  rw [list_sum_flatMap, list_sum_map_range]
  refine Finset.sum_congr rfl (fun d _ => ?_)
  rw [list_sum_flatMap, list_sum_map_range]
  refine Finset.sum_congr rfl (fun i _ => ?_)
  rw [list_sum_filter_map_range]
  refine Finset.sum_congr rfl (fun j _ => ?_)
  by_cases hij : i ≠ j <;> by_cases hb : bTrue (xval i j d) <;> simp [hij, hb]

/-! ## Permutation bridge between decoded indices and the assigned list -/

theorem list_perm_of_nodup_of_toFinset_eq {l l' : List ℕ}
    (h1 : l.Nodup) (h2 : l'.Nodup) (h : l.toFinset = l'.toFinset) :
    l.Perm l' := by
  have h3 := List.toFinset_eq_iff_perm_dedup.mp h
  rwa [List.Nodup.dedup h1, List.Nodup.dedup h2] at h3

theorem decodeDayIdx_perm_assigned (names : List String) (yval : RawVisit)
    (xval : RawArc) (d : ℕ)
    (Hc : arcsWithinAssigned names.length yval xval d) :
    (decodeDayIdx names yval xval d).Perm (assigned yval names.length d) := by
  apply list_perm_of_nodup_of_toFinset_eq (decodeDayIdx_nodup names yval xval d)
    (assigned_nodup yval names.length d)
  ext i
  rw [List.mem_toFinset, List.mem_toFinset,
    decodeDayIdx_mem_iff names yval xval d Hc, mem_assigned]

theorem decodeDayIdx_map_sum_eq (f : ℕ → ℚ) (names : List String)
    (yval : RawVisit) (xval : RawArc) (d : ℕ)
    (Hc : arcsWithinAssigned names.length yval xval d) :
    ((decodeDayIdx names yval xval d).map f).sum =
      ((assigned yval names.length d).map f).sum :=
  List.Perm.sum_eq (List.Perm.map f (decodeDayIdx_perm_assigned names yval xval d Hc))

theorem names_getD_inj (names : List String) (hnd : names.Nodup) {i j : ℕ}
    (hi : i < names.length) (hj : j < names.length)
    (h : names.getD i "" = names.getD j "") : i = j := by
  rw [List.getD_eq_getElem names "" hi, List.getD_eq_getElem names "" hj] at h
  exact (List.Nodup.getElem_inj_iff hnd).mp h

/-! ## Projections of the pipeline result -/

theorem solve_itinerary_success {names : List String} {dist : ℕ → ℕ → ℚ}
    {fee funW : ℕ → ℚ} {days : ℕ} {tcpk : ℚ} {status : SolverStatus}
    {yval : RawVisit} {xval : RawArc} (h : status.isSuccess = true) :
    (solve_mtsp_post names dist fee funW days tcpk status yval xval).itinerary =
      (List.range days).map (fun d => decodeDay names yval xval d) := by
  simp [solve_mtsp_post, h]

theorem solve_itinerary_fail {names : List String} {dist : ℕ → ℕ → ℚ}
    {fee funW : ℕ → ℚ} {days : ℕ} {tcpk : ℚ} {status : SolverStatus}
    {yval : RawVisit} {xval : RawArc} (h : status.isSuccess = false) :
    (solve_mtsp_post names dist fee funW days tcpk status yval xval).itinerary =
      List.replicate days [] := by
  simp [solve_mtsp_post, h]

theorem solve_totals_success {names : List String} {dist : ℕ → ℕ → ℚ}
    {fee funW : ℕ → ℚ} {days : ℕ} {tcpk : ℚ} {status : SolverStatus}
    {yval : RawVisit} {xval : RawArc} (h : status.isSuccess = true) :
    (solve_mtsp_post names dist fee funW days tcpk status yval xval).total_fun =
      totalFunOf funW names.length days yval ∧
    (solve_mtsp_post names dist fee funW days tcpk status yval xval).total_dist =
      totalDistOf dist names.length days xval ∧
    (solve_mtsp_post names dist fee funW days tcpk status yval xval).total_cost =
      totalEntryCost fee names.length days yval +
        totalDistOf dist names.length days xval * tcpk := by
  refine ⟨?_, ?_, ?_⟩ <;> simp [solve_mtsp_post, h]

/-! ## The claims -/

/-- C2: whenever the solver status is neither OPTIMAL nor FEASIBLE, the
pipeline returns exactly `days` empty lists and all totals `0.0`; the
return is an ordinary value, not an exception (the embedded pipeline is a
total function). -/
theorem claim_C2_soft_infeasible (names : List String) (dist : ℕ → ℕ → ℚ)
    (fee funW : ℕ → ℚ) (days : ℕ) (tcpk : ℚ) (status : SolverStatus)
    (yval : RawVisit) (xval : RawArc) (h : status.isSuccess = false) :
    solve_mtsp_post names dist fee funW days tcpk status yval xval =
      { itinerary := List.replicate days [], total_cost := 0,
        total_fun := 0, total_dist := 0 } ∧
    (solve_mtsp_post names dist fee funW days tcpk status yval xval).itinerary.length
      = days ∧
    ∀ l ∈ (solve_mtsp_post names dist fee funW days tcpk status yval xval).itinerary,
      l = ([] : List String) := by
  refine ⟨?_, ?_, ?_⟩
  · simp [solve_mtsp_post, h]
  · simp [solve_mtsp_post, h]
  · intro l hl
    rw [solve_itinerary_fail h] at hl
    exact List.eq_of_mem_replicate hl

/-- Witness for C2 at the INFEASIBLE status with three days. -/
theorem claim_C2_soft_infeasible_witness :
    solve_mtsp_post ["A", "B"] distWit feeWit funWit 3 20 .INFEASIBLE yWit xWit =
      { itinerary := [[], [], []], total_cost := 0,
        total_fun := 0, total_dist := 0 } :=
  (claim_C2_soft_infeasible ["A", "B"] distWit feeWit funWit 3 20 .INFEASIBLE
    yWit xWit rfl).1

/-- C7: the source performs no input validation.  With `days = 0`
(violating the `days ≥ 1` precondition the spec requires to fail fast) the
pipeline proceeds and returns a normal result with zero itinerary entries
and zero totals, for every solver status — there is no configuration
error. -/
theorem claim_C7_no_validation (status : SolverStatus) (yval : RawVisit)
    (xval : RawArc) :
    solve_mtsp_post ["A"] (fun _ _ => 0) (fun _ => 5) (fun _ => 1) 0 20
        status yval xval =
      { itinerary := [], total_cost := 0, total_fun := 0, total_dist := 0 } := by
  by_cases h : status.isSuccess <;>
    simp [solve_mtsp_post, h, totalEntryCost, totalFunOf, totalDistOf]

/-- C4: on every success path the returned totals are exactly the
structured sums over the materialized assignment:
`total_fun = Σ weightedFun`, `total_distance = Σ dist` over true arcs, and
`total_cost = total_entry_cost + total_distance × travel_cost_per_km`. -/
theorem claim_C4_totals (names : List String) (dist : ℕ → ℕ → ℚ)
    (fee funW : ℕ → ℚ) (days : ℕ) (tcpk : ℚ) (status : SolverStatus)
    (yval : RawVisit) (xval : RawArc) (h : status.isSuccess = true) :
    (solve_mtsp_post names dist fee funW days tcpk status yval xval).total_fun =
      specTotalFun funW names.length days yval ∧
    (solve_mtsp_post names dist fee funW days tcpk status yval xval).total_dist =
      specTotalDist dist names.length days xval ∧
    (solve_mtsp_post names dist fee funW days tcpk status yval xval).total_cost =
      specTotalEntryCost fee names.length days yval +
        specTotalDist dist names.length days xval * tcpk := by
  obtain ⟨h1, h2, h3⟩ :=
    @solve_totals_success names dist fee funW days tcpk status yval xval h
  exact ⟨h1.trans (totalFunOf_eq_spec _ _ _ _),
    h2.trans (totalDistOf_eq_spec _ _ _ _),
    h3.trans (by rw [totalEntryCost_eq_spec, totalDistOf_eq_spec])⟩

/-- Witness for C4 on the concrete constraint-satisfying scenario. -/
theorem claim_C4_totals_witness :
    (solve_mtsp_post ["A", "B"] distWit feeWit funWit 1 20 .OPTIMAL yWit xWit).total_fun
      = specTotalFun funWit 2 1 yWit ∧
    (solve_mtsp_post ["A", "B"] distWit feeWit funWit 1 20 .OPTIMAL yWit xWit).total_dist
      = specTotalDist distWit 2 1 xWit ∧
    (solve_mtsp_post ["A", "B"] distWit feeWit funWit 1 20 .OPTIMAL yWit xWit).total_cost
      = specTotalEntryCost feeWit 2 1 yWit + specTotalDist distWit 2 1 xWit * 20 :=
  claim_C4_totals ["A", "B"] distWit feeWit funWit 1 20 .OPTIMAL yWit xWit rfl

/-- C9: derived quantities.  `travel_time` divides by the speed whenever it
is positive and reuses the raw distance when the speed is zero (falsy);
with a supplied weights mapping, the weighted fun score is
`fun_score × weights.get(category, 1.0)`, the default `1.0` applying to
categories absent from the mapping. -/
theorem claim_C9_derived (dist : ℕ → ℕ → ℚ) (s : ℚ) (attrs : List Attraction)
    (w : List (String × ℚ)) (i j : ℕ) :
    (0 < s → travel_time dist s i j = dist i j / s) ∧
    (s = 0 → travel_time dist s i j = dist i j) ∧
    weightedFun attrs (some w) i =
      (attrs.getD i default).fun_score *
        weightGet w (attrs.getD i default).category ∧
    (∀ c, w.lookup c = none → weightGet w c = 1) ∧
    weightedFun attrs none i = (attrs.getD i default).fun_score := by
  refine ⟨?_, ?_, rfl, ?_, rfl⟩
  · intro hs
    simp [travel_time, ne_of_gt hs]
  · intro hs
    simp [travel_time, hs]
  · intro c hc
    simp [weightGet, hc]

/-- Witness for C9: positive speed divides, zero speed falls back, and a
category missing from the mapping gets weight 1. -/
theorem claim_C9_derived_witness :
    travel_time distWit 2 0 1 = distWit 0 1 / 2 ∧
    travel_time distWit 0 0 1 = distWit 0 1 ∧
    weightGet weightsWit "park" = 1 :=
  ⟨(claim_C9_derived distWit 2 attrsWit weightsWit 0 1).1 (by norm_num),
   (claim_C9_derived distWit 0 attrsWit weightsWit 0 1).2.1 rfl,
   (claim_C9_derived distWit 0 attrsWit weightsWit 0 1).2.2.2.1 "park" (by decide)⟩

/-- C6: decoding is deterministic and factors through the materialized
boolean pattern: two raw assignments with the same `>0.5` pattern on the
relevant index range produce identical itineraries for every status, and a
raw value exactly equal to `0.5` materializes as false. -/
theorem claim_C6_deterministic (names : List String) (dist : ℕ → ℕ → ℚ)
    (fee funW : ℕ → ℚ) (days : ℕ) (tcpk : ℚ) (status : SolverStatus)
    (yval yval' : RawVisit) (xval xval' : RawArc)
    (hy : ∀ d, d < days → ∀ i, i < names.length →
      bTrue (yval i d) = bTrue (yval' i d))
    (hx : ∀ d, d < days → ∀ i, i < names.length → ∀ j, j < names.length →
      bTrue (xval i j d) = bTrue (xval' i j d)) :
    (solve_mtsp_post names dist fee funW days tcpk status yval xval).itinerary =
      (solve_mtsp_post names dist fee funW days tcpk status yval' xval').itinerary ∧
    bTrue ((1 : ℚ)/2) = false := by
  refine ⟨?_, by simp [bTrue, Rat.mkRat_eq_div]⟩
  by_cases h : status.isSuccess
  · rw [solve_itinerary_success h, solve_itinerary_success h]
    apply List.map_congr_left
    intro d hd
    rw [List.mem_range] at hd
    exact decodeDay_congr names yval yval' xval xval' d (hy d hd) (hx d hd)
  · rw [solve_itinerary_fail (Bool.not_eq_true _ ▸ h),
      solve_itinerary_fail (Bool.not_eq_true _ ▸ h)]

/-- Witness for C6: `yWitAlt`/`xWitAlt` differ numerically from
`yWit`/`xWit` (and place an off-pattern value exactly at `0.5`) yet decode
to the same itinerary. -/
theorem claim_C6_deterministic_witness :
    (solve_mtsp_post ["A", "B"] distWit feeWit funWit 1 20 .OPTIMAL
        yWit xWit).itinerary =
      (solve_mtsp_post ["A", "B"] distWit feeWit funWit 1 20 .OPTIMAL
        yWitAlt xWitAlt).itinerary :=
  (claim_C6_deterministic ["A", "B"] distWit feeWit funWit 1 20 .OPTIMAL
    yWit yWitAlt xWit xWitAlt (by decide) (by decide)).1

/-- C3: the decoder collects the assigned indices, walks successor chains
marking nodes visited as consumed, and concatenates the chains in
discovery order into one flat list (no boundary markers); the chain names
are exactly the walked indices mapped through the name list; the walk is
total, with chain length uniformly bounded by `n` for EVERY successor map,
including cyclic ones; and a walk stops at an already-visited node or at a
node with no successor. -/
theorem claim_C3_decoder (names : List String) (yval : RawVisit)
    (xval : RawArc) (d : ℕ) :
    decodeDay names yval xval d =
      ((chainsIdx (succOf xval names.length d) names.length
          (assigned yval names.length d) ∅).1.map
        (List.map (fun i => names.getD i ""))).flatten ∧
    decodeDay names yval xval d =
      (decodeDayIdx names yval xval d).map (fun i => names.getD i "") ∧
    (∀ (succ : ℕ → Option ℕ) (visited : Finset ℕ) (cur : ℕ),
      ((walkIdx succ names.length visited cur).1).length ≤ names.length) ∧
    (∀ (succ : ℕ → Option ℕ) (visited : Finset ℕ) (cur : ℕ),
      cur ∈ visited → walkIdx succ names.length visited cur = ([], visited)) ∧
    (∀ (succ : ℕ → Option ℕ) (visited : Finset ℕ) (cur : ℕ),
      cur ∉ visited → cur < names.length → succ cur = none →
      walkIdx succ names.length visited cur = ([cur], insert cur visited)) := by
  refine ⟨?_, decodeDay_eq_decodeDayIdx names yval xval d, ?_, ?_, ?_⟩
  · simp only [decodeDay]
    rw [chainsFrom_eq_chainsIdx]
  · intro succ visited cur
    have hnd := walkIdx_nodup succ names.length visited cur
    have hlt := walkIdx_mem_lt succ names.length visited cur
    calc ((walkIdx succ names.length visited cur).1).length
        = ((walkIdx succ names.length visited cur).1).toFinset.card :=
          (List.toFinset_card_of_nodup hnd).symm
      _ ≤ (Finset.range names.length).card := by
          apply Finset.card_le_card
          intro a ha
          rw [List.mem_toFinset] at ha
          exact Finset.mem_range.mpr (hlt a ha)
      _ = names.length := Finset.card_range _
  · intro succ visited cur hv
    exact walkIdx_neg (fun hc => hc.1 hv)
  · intro succ visited cur h1 h2 hs
    exact walkIdx_pos_none h1 h2 hs

/-- Witness for C3: the name/index correspondence on the witness scenario,
a walk stopped by the visited set under a cyclic successor map, and the
termination bound on a two-cycle. -/
theorem claim_C3_decoder_witness :
    decodeDay ["A", "B"] yWit xWit 0 =
      (decodeDayIdx ["A", "B"] yWit xWit 0).map
        (fun i => (["A", "B"] : List String).getD i "") ∧
    walkIdx (fun _ => some 0) 2 {0} 0 = ([], {0}) ∧
    ((walkIdx (fun i => some ((i + 1) % 2)) 2 ∅ 0).1).length ≤ 2 :=
  ⟨(claim_C3_decoder ["A", "B"] yWit xWit 0).2.1,
   (claim_C3_decoder ["A", "B"] yWit xWit 0).2.2.2.1 (fun _ => some 0) {0} 0
     (by decide),
   (claim_C3_decoder ["A", "B"] yWit xWit 0).2.2.1 (fun i => some ((i + 1) % 2)) ∅ 0⟩

/-- C10: for a day whose materialized-true arcs stay within the assigned
set (as the degree constraints guarantee) and unique attraction names, the
decoded flat list is a permutation of the assigned attractions' names and
has no duplicates: decoding neither drops an assigned attraction nor
introduces an unassigned one. -/
theorem claim_C10_decode_exactly_assigned (names : List String)
    (yval : RawVisit) (xval : RawArc) (d : ℕ) (hnd : names.Nodup)
    (Hc : arcsWithinAssigned names.length yval xval d) :
    (decodeDay names yval xval d).Nodup ∧
    (decodeDay names yval xval d).Perm
      ((assigned yval names.length d).map (fun i => names.getD i "")) := by
  constructor
  · rw [decodeDay_eq_decodeDayIdx]
    apply List.Nodup.map_on ?_ (decodeDayIdx_nodup names yval xval d)
    intro a ha b hb hab
    exact names_getD_inj names hnd (decodeDayIdx_lt names yval xval d a ha)
      (decodeDayIdx_lt names yval xval d b hb) hab
  · rw [decodeDay_eq_decodeDayIdx]
    exact List.Perm.map _ (decodeDayIdx_perm_assigned names yval xval d Hc)

/-- Witness for C10 on the witness scenario: both assigned attractions
appear exactly once. -/
theorem claim_C10_witness :
    (decodeDay ["A", "B"] yWit xWit 0).Nodup ∧
    (decodeDay ["A", "B"] yWit xWit 0).Perm
      ((assigned yWit 2 0).map (fun i => (["A", "B"] : List String).getD i "")) :=
  claim_C10_decode_exactly_assigned ["A", "B"] yWit xWit 0 (by decide) (by decide)

/-! ## Fuel-based evaluation of the decoder -/

theorem sdiff_insert_ssubset {n cur : ℕ} {visited : Finset ℕ}
    (h1 : cur ∉ visited) (h2 : cur < n) :
    (Finset.range n \ insert cur visited) ⊂ (Finset.range n \ visited) := by
  apply Finset.ssubset_iff.mpr
  refine ⟨cur, ?_, ?_⟩
  · simp [h1, h2]
  · intro a ha
    rcases Finset.mem_insert.mp ha with h3 | h3
    · subst h3
      simp [h1, h2]
    · have h4 := Finset.mem_sdiff.mp h3
      exact Finset.mem_sdiff.mpr ⟨h4.1, fun hc => h4.2 (Finset.mem_insert_of_mem hc)⟩

theorem walkIdxF_eq (succ : ℕ → Option ℕ) (n : ℕ) :
    ∀ (fuel : ℕ) (visited : Finset ℕ) (cur : ℕ),
      (Finset.range n \ visited).card < fuel →
      walkIdxF fuel succ n visited cur = walkIdx succ n visited cur := by
  intro fuel
  induction fuel with
  | zero => intro visited cur h; omega
  | succ m ih =>
    intro visited cur h
    by_cases hc : cur ∉ visited ∧ cur < n
    · cases hs : succ cur with
      | some nxt =>
        rw [walkIdx_pos_some hc.1 hc.2 hs]
        simp only [walkIdxF, if_pos hc, hs]
        rw [ih (insert cur visited) nxt ?_]
        have := Finset.card_lt_card (sdiff_insert_ssubset hc.1 hc.2)
        omega
      | none =>
        rw [walkIdx_pos_none hc.1 hc.2 hs]
        simp only [walkIdxF, if_pos hc, hs]
    · rw [walkIdx_neg hc]
      simp only [walkIdxF, if_neg hc]

theorem chainsIdxF_eq (succ : ℕ → Option ℕ) (n fuel : ℕ) (h : n < fuel) :
    ∀ (starts : List ℕ) (visited : Finset ℕ),
      chainsIdxF fuel succ n starts visited = chainsIdx succ n starts visited := by
  intro starts
  induction starts with
  | nil => intro visited; rfl
  | cons start rest ih =>
    intro visited
    by_cases hv : start ∈ visited
    · simp only [chainsIdxF, chainsIdx, if_pos hv]
      exact ih visited
    · simp only [chainsIdxF, chainsIdx, if_neg hv]
      rw [walkIdxF_eq succ n fuel visited start ?_, ih]
      calc (Finset.range n \ visited).card
          ≤ (Finset.range n).card := Finset.card_le_card (Finset.sdiff_subset)
        _ = n := Finset.card_range n
        _ < fuel := h

theorem decodeDayIdx_eval (names : List String) (yval : RawVisit)
    (xval : RawArc) (d : ℕ) :
    decodeDayIdx names yval xval d =
      ((chainsIdxF (names.length + 1) (succOf xval names.length d) names.length
        (assigned yval names.length d) ∅).1).flatten := by
  simp only [decodeDayIdx]
  rw [chainsIdxF_eq _ _ _ (Nat.lt_succ_self _)]

theorem decodeDay_eval (names : List String) (yval : RawVisit)
    (xval : RawArc) (d : ℕ) :
    decodeDay names yval xval d =
      (((chainsIdxF (names.length + 1) (succOf xval names.length d) names.length
        (assigned yval names.length d) ∅).1).flatten).map
          (fun i => names.getD i "") := by
  rw [decodeDay_eq_decodeDayIdx, decodeDayIdx_eval]

/-- C8: for a success status and a day whose materialized assignment
respects the degree constraints and the per-day budget constraint, that
day's itinerary entry is the decoded sequence and the sum of entry fees
over the day's decoded attractions stays within `budget_day` (exactly, in
the rational model — no floating error). -/
theorem claim_C8_day_budget (names : List String) (dist : ℕ → ℕ → ℚ)
    (fee funW : ℕ → ℚ) (days : ℕ) (tcpk : ℚ) (status : SolverStatus)
    (yval : RawVisit) (xval : RawArc) (d : ℕ) (budget_day : ℚ)
    (h : status.isSuccess = true) (hd : d < days)
    (Hc : arcsWithinAssigned names.length yval xval d)
    (Hb : ((assigned yval names.length d).map fee).sum ≤ budget_day) :
    (solve_mtsp_post names dist fee funW days tcpk status yval xval).itinerary.getD d []
      = (decodeDayIdx names yval xval d).map (fun i => names.getD i "") ∧
    ((decodeDayIdx names yval xval d).map fee).sum ≤ budget_day := by
  constructor
  · rw [solve_itinerary_success h]
    have hlen : d < ((List.range days).map
        (fun d => decodeDay names yval xval d)).length := by simpa using hd
    rw [List.getD_eq_getElem _ _ hlen, List.getElem_map, List.getElem_range,
      decodeDay_eq_decodeDayIdx]
  · rw [decodeDayIdx_map_sum_eq fee names yval xval d Hc]
    exact Hb

/-- Witness for C8 on the witness scenario with budget 25 (the day's fees
sum to 20). -/
theorem claim_C8_day_budget_witness :
    (solve_mtsp_post ["A", "B"] distWit feeWit funWit 1 20 .OPTIMAL
        yWit xWit).itinerary.getD 0 []
      = (decodeDayIdx ["A", "B"] yWit xWit 0).map
          (fun i => (["A", "B"] : List String).getD i "") ∧
    ((decodeDayIdx ["A", "B"] yWit xWit 0).map feeWit).sum ≤ 25 :=
  claim_C8_day_budget ["A", "B"] distWit feeWit funWit 1 20 .OPTIMAL yWit xWit
    0 25 rfl (by decide) (by decide)
    (by
      show ((assigned yWit 2 0).map feeWit).sum ≤ 25
      rw [show assigned yWit 2 0 = [0, 1] from by decide]
      norm_num [feeWit])

/-! ## Cross-day disjointness machinery -/

theorem pairwise_disjoint_replicate_nil (days : ℕ) :
    (List.replicate days ([] : List String)).Pairwise List.Disjoint := by
  induction days with
  | zero => simp
  | succ m ih =>
    rw [List.replicate_succ]
    exact List.Pairwise.cons (fun b _ a ha => absurd ha (List.not_mem_nil a)) ih

theorem decodeDayIdx_disjoint (names : List String) (yval : RawVisit)
    (xval : RawArc) (days : ℕ)
    (Hc : ∀ d, d < days → arcsWithinAssigned names.length yval xval d)
    (Hone : visitedAtMostOnce names.length days yval)
    {a b : ℕ} (ha : a < days) (hb : b < days) (hne : a ≠ b) :
    List.Disjoint (decodeDayIdx names yval xval a) (decodeDayIdx names yval xval b) := by
  intro i hia hib
  have h1 := (decodeDayIdx_mem_iff names yval xval a (Hc a ha) i).mp hia
  have h2 := (decodeDayIdx_mem_iff names yval xval b (Hc b hb) i).mp hib
  exact hne (Hone i h1.1 a ha b hb h1.2 h2.2)

/-- C1 (counterexample to the claim as stated): with unique names and an
assignment satisfying the visited-at-most-once constraint, a name can
still appear in two different days' entries, because the decoder follows a
materialized arc into an attraction that is not assigned on that day.
Here attraction 1 ("B") is assigned only to day 1, yet the arc 0 → 1 on
day 0 drags "B" into day 0's chain as well. -/
theorem claim_C1_counterexample :
    (["A", "B"] : List String).Nodup ∧
    visitedAtMostOnce 2 2 yCexOne ∧
    resCexOne.itinerary.length = 2 ∧
    "B" ∈ resCexOne.itinerary.getD 0 [] ∧
    "B" ∈ resCexOne.itinerary.getD 1 [] := by
  have hit : resCexOne.itinerary = [["A", "B"], ["B"]] := by
    unfold resCexOne
    rw [solve_itinerary_success (show SolverStatus.OPTIMAL.isSuccess = true from rfl)]
    simp only [decodeDay_eval]
    decide
  refine ⟨by decide, by decide, ?_, ?_, ?_⟩ <;> rw [hit] <;> decide

/-- C1 (amended): the itinerary always has exactly `days` entries; with
unique names each entry is duplicate-free; and if additionally every
materialized-true arc stays within the day's assigned set (which the
degree constraints guarantee for constraint-satisfying solutions) and the
at-most-once constraint holds, no name appears in more than one day's
entry. -/
theorem claim_C1_itinerary_shape (names : List String) (dist : ℕ → ℕ → ℚ)
    (fee funW : ℕ → ℚ) (days : ℕ) (tcpk : ℚ) (status : SolverStatus)
    (yval : RawVisit) (xval : RawArc) :
    (solve_mtsp_post names dist fee funW days tcpk status yval xval).itinerary.length
      = days ∧
    (names.Nodup →
      ∀ l ∈ (solve_mtsp_post names dist fee funW days tcpk status yval xval).itinerary,
        l.Nodup) ∧
    (names.Nodup →
      (∀ d, d < days → arcsWithinAssigned names.length yval xval d) →
      visitedAtMostOnce names.length days yval →
      (solve_mtsp_post names dist fee funW days tcpk status yval
        xval).itinerary.Pairwise List.Disjoint) := by
  refine ⟨?_, ?_, ?_⟩
  · by_cases h : status.isSuccess
    · rw [solve_itinerary_success h]
      simp
    · rw [solve_itinerary_fail (by simpa using h)]
      simp
  · intro hnd l hl
    by_cases h : status.isSuccess
    · rw [solve_itinerary_success h] at hl
      obtain ⟨d, _, rfl⟩ := List.mem_map.mp hl
      rw [decodeDay_eq_decodeDayIdx]
      apply List.Nodup.map_on ?_ (decodeDayIdx_nodup names yval xval d)
      intro a ha b hb hab
      exact names_getD_inj names hnd (decodeDayIdx_lt names yval xval d a ha)
        (decodeDayIdx_lt names yval xval d b hb) hab
    · rw [solve_itinerary_fail (by simpa using h)] at hl
      rw [List.eq_of_mem_replicate hl]
      exact List.nodup_nil
  · intro hnd Hc Hone
    by_cases h : status.isSuccess
    · rw [solve_itinerary_success h, List.pairwise_map]
      apply List.Pairwise.imp_of_mem ?_ (List.pairwise_lt_range days)
      intro a b ha hb hlt
      rw [List.mem_range] at ha hb
      intro nm hna hnb
      rw [decodeDay_eq_decodeDayIdx] at hna hnb
      obtain ⟨i, hi, hie⟩ := List.mem_map.mp hna
      obtain ⟨i2, hi2, hie2⟩ := List.mem_map.mp hnb
      have heq : i2 = i := names_getD_inj names hnd
        (decodeDayIdx_lt names yval xval b i2 hi2)
        (decodeDayIdx_lt names yval xval a i hi) (hie2.trans hie.symm)
      subst heq
      exact decodeDayIdx_disjoint names yval xval days Hc Hone ha hb
        (Nat.ne_of_lt hlt) hi hi2
    · rw [solve_itinerary_fail (by simpa using h)]
      exact pairwise_disjoint_replicate_nil days

/-- Witness for the amended C1 on the witness scenario. -/
theorem claim_C1_itinerary_shape_witness :
    (∀ l ∈ (solve_mtsp_post ["A", "B"] distWit feeWit funWit 1 20 .OPTIMAL
        yWit xWit).itinerary, l.Nodup) ∧
    (solve_mtsp_post ["A", "B"] distWit feeWit funWit 1 20 .OPTIMAL
        yWit xWit).itinerary.Pairwise List.Disjoint :=
  ⟨(claim_C1_itinerary_shape ["A", "B"] distWit feeWit funWit 1 20 .OPTIMAL
      yWit xWit).2.1 (by decide),
   (claim_C1_itinerary_shape ["A", "B"] distWit feeWit funWit 1 20 .OPTIMAL
      yWit xWit).2.2 (by decide) (by decide) (by decide)⟩

/-- C5 (counterexample to the claim as stated): a feasible one-day
assignment with two disconnected fragments 0 → 1 and 2 → 3.  The flat
decoded day is `[0, 1, 2, 3]`, whose consecutive pairs include the
boundary pair (1, 2); the returned `total_dist` sums only the two true
arcs (2 + 6 = 8) while the consecutive-pair sum is 2 + 4 + 6 = 12. -/
theorem claim_C5_counterexample :
    visitedAtMostOnce 4 1 yCexTwo ∧
    arcsWithinAssigned 4 yCexTwo xCexTwo 0 ∧
    resCexTwo.total_dist = 8 ∧
    decodedPairDistSum ["A", "B", "C", "D"] distCexTwo yCexTwo xCexTwo 1 = 12 ∧
    resCexTwo.total_dist ≠
      decodedPairDistSum ["A", "B", "C", "D"] distCexTwo yCexTwo xCexTwo 1 := by
  have hidx : decodeDayIdx ["A", "B", "C", "D"] yCexTwo xCexTwo 0 = [0, 1, 2, 3] := by
    rw [decodeDayIdx_eval]
    decide
  have hlist : ((List.range 1).flatMap (fun d => (List.range 4).flatMap (fun i =>
      ((List.range 4).filter (fun j => decide (i ≠ j) && bTrue (xCexTwo i j d))).map
        (fun j => distCexTwo i j)))) = [2, 6] := by
    decide
  have hdist : resCexTwo.total_dist = 8 := by
    unfold resCexTwo
    rw [(solve_totals_success
      (show SolverStatus.OPTIMAL.isSuccess = true from rfl)).2.1]
    show totalDistOf distCexTwo 4 1 xCexTwo = 8
    unfold totalDistOf
    rw [hlist]
    norm_num
  have hpair : decodedPairDistSum ["A", "B", "C", "D"] distCexTwo yCexTwo xCexTwo 1
      = 12 := by
    unfold decodedPairDistSum
    rw [show List.range 1 = [0] from rfl]
    simp only [List.map_cons, List.map_nil, hidx]
    norm_num [pairDistSum, distCexTwo]
  refine ⟨by decide, by decide, hdist, hpair, ?_⟩
  rw [hdist, hpair]
  norm_num

/-- C5 (amended): under the degree-constraint and at-most-once hypotheses,
`total_fun` equals the sum of `weightedFun` over the attractions appearing
in the decoded itinerary — each exactly once, as the concatenated decoded
index list is duplicate-free — while `total_dist` is the sum of
`dist[i][j]` over the materialized-true arcs, not over the consecutive
pairs of the decoded sequences. -/
theorem claim_C5_relational (names : List String) (dist : ℕ → ℕ → ℚ)
    (fee funW : ℕ → ℚ) (days : ℕ) (tcpk : ℚ) (status : SolverStatus)
    (yval : RawVisit) (xval : RawArc)
    (h : status.isSuccess = true)
    (Hc : ∀ d, d < days → arcsWithinAssigned names.length yval xval d)
    (Hone : visitedAtMostOnce names.length days yval) :
    (solve_mtsp_post names dist fee funW days tcpk status yval xval).total_fun =
      (((List.range days).flatMap
        (fun d => decodeDayIdx names yval xval d)).map funW).sum ∧
    ((List.range days).flatMap (fun d => decodeDayIdx names yval xval d)).Nodup ∧
    (solve_mtsp_post names dist fee funW days tcpk status yval xval).total_dist =
      specTotalDist dist names.length days xval := by
  refine ⟨?_, ?_, ?_⟩
  · rw [(solve_totals_success h).1, List.map_flatMap]
    unfold totalFunOf
    rw [list_sum_flatMap, list_sum_flatMap]
    congr 1
    apply List.map_congr_left
    intro d hd
    rw [List.mem_range] at hd
    exact (decodeDayIdx_map_sum_eq funW names yval xval d (Hc d hd)).symm
  · rw [List.flatMap_def, List.nodup_flatten]
    constructor
    · intro l hl
      obtain ⟨d, _, rfl⟩ := List.mem_map.mp hl
      exact decodeDayIdx_nodup names yval xval d
    · rw [List.pairwise_map]
      apply List.Pairwise.imp_of_mem ?_ (List.pairwise_lt_range days)
      intro a b ha hb hlt
      rw [List.mem_range] at ha hb
      exact decodeDayIdx_disjoint names yval xval days Hc Hone ha hb
        (Nat.ne_of_lt hlt)
  · exact ((solve_totals_success h).2.1).trans (totalDistOf_eq_spec _ _ _ _)

/-- Witness for the amended C5 on the witness scenario. -/
theorem claim_C5_relational_witness :
    (solve_mtsp_post ["A", "B"] distWit feeWit funWit 1 20 .OPTIMAL
        yWit xWit).total_fun =
      (((List.range 1).flatMap (fun d => decodeDayIdx ["A", "B"] yWit xWit d)).map
        funWit).sum ∧
    ((List.range 1).flatMap (fun d => decodeDayIdx ["A", "B"] yWit xWit d)).Nodup ∧
    (solve_mtsp_post ["A", "B"] distWit feeWit funWit 1 20 .OPTIMAL
        yWit xWit).total_dist = specTotalDist distWit 2 1 xWit :=
  claim_C5_relational ["A", "B"] distWit feeWit funWit 1 20 .OPTIMAL yWit xWit
    rfl (by decide) (by decide)
